import Mathlib

/-!
Shallow embedding of the chunked persistent stack `PStack` from
`src/data_structure/mod.rs` of the xq repository.

The Rust type is

  struct PStack<T, B = [T; 32]> {
      prev: Option<Rc<PStack<T, B>>>,
      current: sized_chunks::InlineArray<T, B>,
  }

We model `InlineArray<T, B>` as a `List T` together with the capacity
`B : Nat` passed to the operations that consult it.  The `Rc` shared
pointer disappears in value semantics: chain nodes are never mutated
through the `Rc` in the source (`pop`/`top_mut` only read through
`p.borrow()` and clone out of it), so a chain node is faithfully
represented by the value it holds.  `InlineArray::push` panics when the
array is full; that panic is modelled by returning `none`.
-/

set_option linter.unusedVariables false

namespace Xq

/-- Model of `sized_chunks::InlineArray`: the element list plus the
capacity bound checked by the operations. -/
abbrev Chunk (T : Type) := List T

/-- InlineArray::new — an empty array. -/
def Chunk.new {T : Type} : Chunk T := []

/-- InlineArray::is_full — the length has reached the capacity B. -/
def Chunk.is_full {T : Type} (B : Nat) (c : Chunk T) : Bool :=
  c.length == B

/-- InlineArray::is_empty. -/
def Chunk.is_empty {T : Type} (c : Chunk T) : Bool :=
  c.isEmpty

/-- InlineArray::push — appends at the back; panics (here: none) when
the array is already full. -/
def Chunk.push {T : Type} (B : Nat) (c : Chunk T) (v : T) : Option (Chunk T) :=
  if c.is_full B then none else some (c ++ [v])

/-- InlineArray::pop — removes and returns the last element, or none
when the array is empty. -/
def Chunk.pop {T : Type} (c : Chunk T) : Option (T × Chunk T) :=
  match c.getLast? with
  | none => none
  | some v => some (v, c.dropLast)

/-- InlineArray::last — the last element, or none when empty. -/
def Chunk.last {T : Type} (c : Chunk T) : Option T :=
  c.getLast?

/-- The persistent stack `PStack<T, B>`: an exclusively owned current
chunk plus an optional shared link to the previous chain node, which in
the source is itself a `PStack` behind an `Rc`. -/
inductive PStack (T : Type) : Type where
  | mk (prev : Option (PStack T)) (current : Chunk T)

/-- PStack::new / Default::default — empty current chunk, no previous. -/
def PStack.new {T : Type} : PStack T := .mk none Chunk.new

/-- PStack::push.  If `current` is full, `mem::take(self)` folds the
whole present state into a new chain node installed as `prev`, leaving
an empty `current`; then the value is appended to `current`.  The
`none` result is the (unreachable for B ≥ 1) panic of
`InlineArray::push`. -/
def PStack.push {T : Type} (B : Nat) (s : PStack T) (v : T) : Option (PStack T) :=
  match s with
  | .mk prev current =>
    let folded : Option (PStack T) × Chunk T :=
      if current.is_full B then (some (.mk prev current), Chunk.new)
      else (prev, current)
    match Chunk.push B folded.2 v with
    | none => none
    | some c => some (.mk folded.1 c)

/-- PStack::pop.  Try to pop `current`; when it is empty and a `prev`
chain node exists, promote: replace `prev` by the node's own `prev`,
clone the node's chunk into `current`, and retry the pop.  Returns the
popped value (none on underflow) together with the updated stack. -/
def PStack.pop {T : Type} (s : PStack T) : Option T × PStack T :=
  match s with
  | .mk prev current =>
    match Chunk.pop current with
    | some (v, c) => (some v, .mk prev c)
    | none =>
      match prev with
      | some (.mk pprev pcur) =>
        match Chunk.pop pcur with
        | some (v, c) => (some v, .mk pprev c)
        | none => (none, .mk pprev pcur)
      | none => (none, .mk none current)

/-- PStack::top — read-only peek taking `&self`: last of `current` when
non-empty, otherwise the last element of the previous chain node's
chunk read in place, otherwise none.  The Lean type `PStack T → Option T`
reflects that the handle is not altered. -/
def PStack.top {T : Type} (s : PStack T) : Option T :=
  match s with
  | .mk prev current =>
    if current.is_empty then
      match prev with
      | some (.mk _ pcur) => Chunk.last pcur
      | none => none
    else Chunk.last current

/-- PStack::top_mut.  When `current` is empty and a `prev` exists, the
same promotion as in `pop` happens first; then the last element of
`current` is returned (in the source, as a mutable reference).  The
pair is (returned element, updated stack). -/
def PStack.top_mut {T : Type} (s : PStack T) : Option T × PStack T :=
  match s with
  | .mk prev current =>
    if current.is_empty then
      match prev with
      | some (.mk pprev pcur) => (Chunk.last pcur, .mk pprev pcur)
      | none => (none, .mk none current)
    else (Chunk.last current, .mk prev current)

/-- derive(Clone) for PStack: `current` is cloned by value and the `Rc`
link is duplicated.  Chain nodes are immutable in the source, so in
value semantics a clone is the same stack value. -/
def PStack.clone {T : Type} (s : PStack T) : PStack T := s

/-- The logical contents of a stack in pop order: the current chunk
reversed (top is at its back), then each chain node's chunk reversed,
oldest last. -/
def PStack.toList {T : Type} : PStack T → List T
  | .mk none current => current.reverse
  | .mk (some p) current => current.reverse ++ p.toList

/-- A chain node (and every node below it) carries a fully populated
chunk: length exactly B. -/
def PStack.full {T : Type} (B : Nat) : PStack T → Prop
  | .mk none current => current.length = B
  | .mk (some p) current => current.length = B ∧ p.full B

/-- Structural invariant of a stack handle: the current chunk's length
never exceeds B, and every chain node reachable through `prev` is fully
populated. -/
def PStack.inv {T : Type} (B : Nat) : PStack T → Prop
  | .mk none current => current.length ≤ B
  | .mk (some p) current => current.length ≤ B ∧ p.full B

/-- Push a whole list of values left to right; none if any push panics. -/
def PStack.pushAll {T : Type} (B : Nat) (s : PStack T) : List T → Option (PStack T)
  | [] => some s
  | v :: vs =>
    match s.push B v with
    | none => none
    | some s1 => s1.pushAll B vs

/-- Perform n pops, collecting each returned Option value in order. -/
def PStack.popN {T : Type} : Nat → PStack T → List (Option T) × PStack T
  | 0, s => ([], s)
  | n + 1, s =>
    let (r, s1) := s.pop
    let (rs, s2) := s1.popN n
    (r :: rs, s2)

/-- Drain by repeated pops with the given amount of fuel, stopping at
the first empty result; collects the popped values. -/
def PStack.drain {T : Type} : Nat → PStack T → List T
  | 0, _ => []
  | n + 1, s =>
    match s.pop with
    | (some v, s1) => v :: s1.drain n
    | (none, _) => []

/-- One operation of the public API. -/
inductive Op (T : Type) : Type where
  | push (v : T)
  | pop
  | top
  | top_mut

/-- Run a sequence of operations on one handle, discarding the read
results; none if a push panics. -/
def PStack.run {T : Type} (B : Nat) (s : PStack T) : List (Op T) → Option (PStack T)
  | [] => some s
  | op :: ops =>
    match op with
    | .push v =>
      match s.push B v with
      | none => none
      | some s1 => s1.run B ops
    | .pop => (s.pop).2.run B ops
    | .top => s.run B ops
    | .top_mut => (s.top_mut).2.run B ops

/-- Stacks reachable from new() with capacity B under the public API;
clone is included as the value copy it performs. -/
inductive Reachable {T : Type} (B : Nat) : PStack T → Prop where
  | new : Reachable B PStack.new
  | push {s s' : PStack T} {v : T} :
      Reachable B s → s.push B v = some s' → Reachable B s'
  | pop {s : PStack T} : Reachable B s → Reachable B (s.pop).2
  | top_mut {s : PStack T} : Reachable B s → Reachable B (s.top_mut).2
  | clone {s : PStack T} : Reachable B s → Reachable B s.clone

/-- Logical contents of an optional chain link. -/
def PStack.chainToList {T : Type} : Option (PStack T) → List T
  | none => []
  | some p => p.toList

/-- Every node of an optional chain link is fully populated. -/
def PStack.fullChain {T : Type} (B : Nat) : Option (PStack T) → Prop
  | none => True
  | some p => p.full B

/-! ### Unfolding lemmas -/

theorem PStack.toList_mk {T : Type} (prev : Option (PStack T)) (cur : Chunk T) :
    (PStack.mk prev cur).toList = cur.reverse ++ chainToList prev := by
  cases prev <;> simp [toList, chainToList]

theorem PStack.full_mk {T : Type} (B : Nat) (prev : Option (PStack T)) (cur : Chunk T) :
    (PStack.mk prev cur).full B ↔ cur.length = B ∧ fullChain B prev := by
  cases prev <;> simp [full, fullChain]

theorem PStack.inv_mk {T : Type} (B : Nat) (prev : Option (PStack T)) (cur : Chunk T) :
    (PStack.mk prev cur).inv B ↔ cur.length ≤ B ∧ fullChain B prev := by
  cases prev <;> simp [inv, fullChain, full_mk]

theorem Chunk.pop_nil {T : Type} : Chunk.pop ([] : Chunk T) = none := rfl

theorem Chunk.pop_concat {T : Type} (c : Chunk T) (v : T) :
    Chunk.pop (c ++ [v]) = some (v, c) := by
  simp [Chunk.pop]

/-! ### Behaviour of the operations on the logical contents -/

/-- A fully populated chain node has non-empty contents when B ≥ 1. -/
theorem PStack.full_toList_ne_nil {T : Type} (B : Nat) (hB : 1 ≤ B)
    (p : PStack T) (h : p.full B) : p.toList ≠ [] := by
  obtain ⟨pprev, pcur⟩ := p
  rw [full_mk] at h
  rw [toList_mk]
  intro hnil
  rcases List.append_eq_nil.mp hnil with ⟨h1, _⟩
  have : pcur.length = 0 := by
    simpa using congrArg List.length h1
  omega

/-- Value and state computed by pop when the current chunk is non-empty. -/
theorem PStack.pop_eq_of_concat {T : Type} (prev : Option (PStack T))
    (L : List T) (a : T) :
    (PStack.mk prev (L ++ [a])).pop = (some a, .mk prev L) := by
  simp [pop, Chunk.pop_concat]

/-- Value and state computed by pop on an empty current chunk with a
chain node whose chunk is non-empty: promotion then a successful pop. -/
theorem PStack.pop_eq_promote {T : Type} (pprev : Option (PStack T))
    (M : List T) (b : T) :
    (PStack.mk (some (.mk pprev (M ++ [b]))) ([] : Chunk T)).pop
      = (some b, .mk pprev M) := by
  simp [pop, Chunk.pop_nil, Chunk.pop_concat]

/-- Value and state computed by pop on an empty current chunk with a
chain node whose chunk is empty: promotion then a failing retry. -/
theorem PStack.pop_eq_promote_nil {T : Type} (pprev : Option (PStack T)) :
    (PStack.mk (some (.mk pprev ([] : Chunk T))) ([] : Chunk T)).pop
      = (none, .mk pprev []) := by
  simp [pop, Chunk.pop_nil]

/-- Value and state computed by pop on the fully drained stack. -/
theorem PStack.pop_eq_nil {T : Type} :
    (PStack.mk none ([] : Chunk T)).pop = (none, .mk none []) := rfl

/-- pop removes and returns the head of the logical contents and
preserves the structural invariant. -/
theorem PStack.pop_spec {T : Type} (B : Nat) (hB : 1 ≤ B)
    (s : PStack T) (h : s.inv B) :
    (s.pop).1 = (s.toList).head? ∧ (s.pop).2.toList = (s.toList).tail ∧
      (s.pop).2.inv B := by
  obtain ⟨prev, cur⟩ := s
  rw [inv_mk] at h
  rcases List.eq_nil_or_concat cur with hc | ⟨L, a, hc⟩
  · subst hc
    cases prev with
    | none =>
      rw [pop_eq_nil]
      refine ⟨by simp [toList_mk, chainToList], by simp [toList_mk, chainToList], ?_⟩
      rw [inv_mk]
      exact ⟨by simp, trivial⟩
    | some p =>
      obtain ⟨pprev, pcur⟩ := p
      have hfull : pcur.length = B ∧ fullChain B pprev := by
        simpa [fullChain, full_mk] using h.2
      rcases List.eq_nil_or_concat pcur with hp | ⟨M, b, hp⟩
      · exfalso
        rw [hp] at hfull
        simp at hfull
        omega
      · rw [List.concat_eq_append] at hp
        subst hp
        have hM : M.length + 1 = B := by simpa using hfull.1
        rw [pop_eq_promote]
        refine ⟨?_, ?_, ?_⟩
        · simp [toList_mk, chainToList]
        · simp [toList_mk, chainToList]
        · rw [inv_mk]
          exact ⟨by omega, hfull.2⟩
  · rw [List.concat_eq_append] at hc
    subst hc
    have hL : L.length + 1 ≤ B := by simpa using h.1
    rw [pop_eq_of_concat]
    refine ⟨?_, ?_, ?_⟩
    · simp [toList_mk, chainToList]
    · simp [toList_mk, chainToList]
    · rw [inv_mk]
      exact ⟨by omega, h.2⟩

/-- pop preserves the structural invariant, for any capacity. -/
theorem PStack.pop_inv {T : Type} (B : Nat) (s : PStack T) (h : s.inv B) :
    (s.pop).2.inv B := by
  obtain ⟨prev, cur⟩ := s
  rw [inv_mk] at h
  rcases List.eq_nil_or_concat cur with hc | ⟨L, a, hc⟩
  · subst hc
    cases prev with
    | none =>
      rw [pop_eq_nil, inv_mk]
      exact ⟨by simp, trivial⟩
    | some p =>
      obtain ⟨pprev, pcur⟩ := p
      have hfull : pcur.length = B ∧ fullChain B pprev := by
        simpa [fullChain, full_mk] using h.2
      rcases List.eq_nil_or_concat pcur with hp | ⟨M, b, hp⟩
      · subst hp
        rw [pop_eq_promote_nil, inv_mk]
        exact ⟨by simp, hfull.2⟩
      · rw [List.concat_eq_append] at hp
        subst hp
        have hM : M.length + 1 = B := by simpa using hfull.1
        rw [pop_eq_promote, inv_mk]
        exact ⟨by omega, hfull.2⟩
  · rw [List.concat_eq_append] at hc
    subst hc
    have hL : L.length + 1 ≤ B := by simpa using h.1
    rw [pop_eq_of_concat, inv_mk]
    exact ⟨by omega, h.2⟩

/-- push with a full current chunk folds the state into a chain node. -/
theorem PStack.push_eq_fold {T : Type} (B : Nat) (hB : 1 ≤ B)
    (prev : Option (PStack T)) (cur : Chunk T) (v : T) (hf : cur.length = B) :
    (PStack.mk prev cur).push B v = some (.mk (some (.mk prev cur)) [v]) := by
  have h0 : (0 == B) = false := by
    simp
    omega
  simp [push, Chunk.is_full, hf, Chunk.push, Chunk.new, h0]

/-- push with a non-full current chunk appends in place. -/
theorem PStack.push_eq_append {T : Type} (B : Nat)
    (prev : Option (PStack T)) (cur : Chunk T) (v : T) (hf : cur.length ≠ B) :
    (PStack.mk prev cur).push B v = some (.mk prev (cur ++ [v])) := by
  have h0 : (cur.length == B) = false := by simpa using hf
  simp [push, Chunk.is_full, h0, Chunk.push]

/-- push succeeds for any capacity B ≥ 1, prepends the value to the
logical contents, and preserves the structural invariant. -/
theorem PStack.push_spec {T : Type} (B : Nat) (hB : 1 ≤ B)
    (s : PStack T) (v : T) :
    ∃ s', s.push B v = some s' ∧ s'.toList = v :: s.toList ∧
      (s.inv B → s'.inv B) := by
  obtain ⟨prev, cur⟩ := s
  by_cases hf : cur.length = B
  · refine ⟨.mk (some (.mk prev cur)) [v], push_eq_fold B hB prev cur v hf, ?_, ?_⟩
    · simp [toList_mk, chainToList]
    · intro h
      rw [inv_mk] at h ⊢
      refine ⟨by simp; omega, ?_⟩
      simp only [fullChain, full_mk]
      exact ⟨hf, h.2⟩
  · refine ⟨.mk prev (cur ++ [v]), push_eq_append B prev cur v hf, ?_, ?_⟩
    · simp [toList_mk, chainToList]
    · intro h
      rw [inv_mk] at h ⊢
      refine ⟨?_, h.2⟩
      have := h.1
      simp
      omega

/-- push at capacity 0 always hits the append panic. -/
theorem PStack.push_zero_eq_none {T : Type} (s : PStack T) (v : T)
    (h : s.inv 0) : s.push 0 v = none := by
  obtain ⟨prev, cur⟩ := s
  rw [inv_mk] at h
  have hc : cur = [] := List.length_eq_zero.mp (Nat.le_zero.mp h.1)
  subst hc
  simp [push, Chunk.is_full, Chunk.push, Chunk.new]

/-- push preserves the structural invariant whenever it succeeds. -/
theorem PStack.push_inv {T : Type} (B : Nat) (s s' : PStack T) (v : T)
    (h : s.inv B) (hpush : s.push B v = some s') : s'.inv B := by
  cases B with
  | zero =>
    rw [push_zero_eq_none s v h] at hpush
    exact absurd hpush (by simp)
  | succ b =>
    obtain ⟨s'', hs'', _, hinv⟩ := push_spec (b + 1) (by omega) s v
    rw [hs''] at hpush
    cases hpush
    exact hinv h

/-- top reads the head of the logical contents. -/
theorem PStack.top_spec {T : Type} (B : Nat) (hB : 1 ≤ B)
    (s : PStack T) (h : s.inv B) : s.top = (s.toList).head? := by
  obtain ⟨prev, cur⟩ := s
  rw [inv_mk] at h
  rcases List.eq_nil_or_concat cur with hc | ⟨L, a, hc⟩
  · subst hc
    cases prev with
    | none => simp [top, Chunk.is_empty, Chunk.last, toList_mk, chainToList]
    | some p =>
      obtain ⟨pprev, pcur⟩ := p
      have hfull : pcur.length = B ∧ fullChain B pprev := by
        simpa [fullChain, full_mk] using h.2
      rcases List.eq_nil_or_concat pcur with hp | ⟨M, b, hp⟩
      · exfalso
        rw [hp] at hfull
        simp at hfull
        omega
      · rw [List.concat_eq_append] at hp
        subst hp
        simp [top, Chunk.is_empty, Chunk.last, toList_mk, chainToList]
  · rw [List.concat_eq_append] at hc
    subst hc
    simp [top, Chunk.is_empty, Chunk.last, toList_mk, chainToList]

/-- top_mut returns exactly what top returns and its promotion leaves
the logical contents unchanged. -/
theorem PStack.top_mut_spec {T : Type} (s : PStack T) :
    (s.top_mut).1 = s.top ∧ (s.top_mut).2.toList = s.toList := by
  obtain ⟨prev, cur⟩ := s
  rcases List.eq_nil_or_concat cur with hc | ⟨L, a, hc⟩
  · subst hc
    cases prev with
    | none => exact ⟨rfl, rfl⟩
    | some p =>
      obtain ⟨pprev, pcur⟩ := p
      refine ⟨?_, ?_⟩
      · simp [top_mut, top, Chunk.is_empty]
      · simp [top_mut, Chunk.is_empty, toList_mk, chainToList]
  · rw [List.concat_eq_append] at hc
    subst hc
    refine ⟨?_, ?_⟩
    · simp [top_mut, top, Chunk.is_empty]
    · simp [top_mut, Chunk.is_empty]

/-- top_mut preserves the structural invariant. -/
theorem PStack.top_mut_inv {T : Type} (B : Nat) (s : PStack T)
    (h : s.inv B) : (s.top_mut).2.inv B := by
  obtain ⟨prev, cur⟩ := s
  rw [inv_mk] at h
  rcases List.eq_nil_or_concat cur with hc | ⟨L, a, hc⟩
  · subst hc
    cases prev with
    | none =>
      simp only [top_mut, Chunk.is_empty, List.isEmpty_nil, if_true]
      rw [inv_mk]
      exact ⟨by simp, trivial⟩
    | some p =>
      obtain ⟨pprev, pcur⟩ := p
      have hfull : pcur.length = B ∧ fullChain B pprev := by
        simpa [fullChain, full_mk] using h.2
      simp only [top_mut, Chunk.is_empty, List.isEmpty_nil, if_true]
      rw [inv_mk]
      exact ⟨Nat.le_of_eq hfull.1, hfull.2⟩
  · rw [List.concat_eq_append] at hc
    subst hc
    have hne : ((L ++ [a]).isEmpty) = false := by simp
    simp only [top_mut, Chunk.is_empty, hne, Bool.false_eq_true, if_false]
    rw [inv_mk]
    exact h

/-- Every stack reachable from new() satisfies the structural invariant. -/
theorem PStack.reachable_inv {T : Type} (B : Nat) (s : PStack T)
    (h : Reachable B s) : s.inv B := by
  induction h with
  | new =>
    rw [PStack.new, inv_mk]
    exact ⟨by simp [Chunk.new], trivial⟩
  | push hr hp ih => exact push_inv B _ _ _ ih hp
  | pop hr ih => exact pop_inv B _ ih
  | top_mut hr ih => exact top_mut_inv B _ ih
  | clone hr ih => exact ih

/-! ### Operation sequences -/

theorem PStack.toList_new {T : Type} : (PStack.new : PStack T).toList = [] := rfl

theorem PStack.inv_new {T : Type} (B : Nat) : (PStack.new : PStack T).inv B := by
  rw [PStack.new, inv_mk]
  exact ⟨by simp [Chunk.new], trivial⟩

/-- pushAll succeeds for B ≥ 1, prepends the values in reverse order,
and preserves the invariant. -/
theorem PStack.pushAll_spec {T : Type} (B : Nat) (hB : 1 ≤ B) :
    ∀ (vs : List T) (s : PStack T), ∃ s', s.pushAll B vs = some s' ∧
      s'.toList = vs.reverse ++ s.toList ∧ (s.inv B → s'.inv B) := by
  intro vs
  induction vs with
  | nil => exact fun s => ⟨s, rfl, by simp, id⟩
  | cons v vs ih =>
    intro s
    obtain ⟨s1, h1, ht1, hi1⟩ := push_spec B hB s v
    obtain ⟨s', h', ht', hi'⟩ := ih s1
    refine ⟨s', ?_, ?_, fun h => hi' (hi1 h)⟩
    · simp [pushAll, h1, h']
    · rw [ht', ht1]
      simp

theorem PStack.popN_succ {T : Type} (n : Nat) (s : PStack T) :
    s.popN (n + 1) = ((s.pop).1 :: ((s.pop).2.popN n).1, ((s.pop).2.popN n).2) := by
  rcases hsp : s.pop with ⟨r, s1⟩
  simp [popN, hsp]

/-- Popping exactly the logical length of a stack returns all its
contents in order and fully drains it. -/
theorem PStack.popN_spec {T : Type} (B : Nat) (hB : 1 ≤ B) :
    ∀ (l : List T) (s : PStack T), s.inv B → s.toList = l →
      (s.popN l.length).1 = l.map some ∧ (s.popN l.length).2.toList = [] ∧
        (s.popN l.length).2.inv B := by
  intro l
  induction l with
  | nil => exact fun s h ht => ⟨rfl, ht, h⟩
  | cons v l ih =>
    intro s h ht
    obtain ⟨h1, h2, h3⟩ := pop_spec B hB s h
    rw [ht] at h1 h2
    simp only [List.head?_cons] at h1
    simp only [List.tail_cons] at h2
    obtain ⟨ih1, ih2, ih3⟩ := ih (s.pop).2 h3 h2
    rw [List.length_cons, popN_succ]
    exact ⟨by rw [h1, ih1]; rfl, ih2, ih3⟩

theorem PStack.drain_succ {T : Type} (n : Nat) (s : PStack T) :
    s.drain (n + 1) = (match (s.pop).1 with
      | some v => v :: ((s.pop).2.drain n)
      | none => []) := by
  rcases hsp : s.pop with ⟨r, s1⟩
  cases r <;> simp [drain, hsp]

/-- Draining with enough fuel returns exactly the logical contents. -/
theorem PStack.drain_spec {T : Type} (B : Nat) (hB : 1 ≤ B) :
    ∀ (l : List T) (n : Nat) (s : PStack T), s.inv B → s.toList = l →
      l.length ≤ n → s.drain n = l := by
  intro l
  induction l with
  | nil =>
    intro n s h ht _
    cases n with
    | zero => rfl
    | succ m =>
      obtain ⟨h1, _, _⟩ := pop_spec B hB s h
      rw [ht] at h1
      rw [drain_succ, h1]
      rfl
  | cons v l ih =>
    intro n s h ht hn
    cases n with
    | zero => exact absurd hn (by simp)
    | succ m =>
      obtain ⟨h1, h2, h3⟩ := pop_spec B hB s h
      rw [ht] at h1 h2
      simp only [List.head?_cons] at h1
      simp only [List.tail_cons] at h2
      rw [drain_succ, h1]
      have := ih m (s.pop).2 h3 h2 (by simpa using hn)
      rw [this]

/-- Any number of pops on the empty stack returns only empty results
and never changes the state. -/
theorem PStack.popN_empty {T : Type} (n : Nat) :
    (PStack.mk none ([] : Chunk T)).popN n = (List.replicate n none, .mk none []) := by
  induction n with
  | zero => rfl
  | succ m ih => rw [popN_succ, pop_eq_nil, ih]; rfl

/-! ### The claims -/

/-- C1: Order law (LIFO): starting from new() with capacity B ≥ 1 and
pushing v0, ..., vn-1, the following n pops return vn-1, ..., v0 in
that order and the (n+1)-th pop returns the empty result. -/
theorem C1_order_law {T : Type} (B : Nat) (hB : 1 ≤ B) (vs : List T) :
    ((PStack.new.pushAll B vs).map fun s => (s.popN vs.length).1)
        = some ((vs.reverse).map some) ∧
    ((PStack.new.pushAll B vs).map fun s => (((s.popN vs.length).2).pop).1)
        = some none := by
  obtain ⟨s, hs, ht, hi⟩ := PStack.pushAll_spec B hB vs PStack.new
  rw [PStack.toList_new, List.append_nil] at ht
  have hinv := hi (PStack.inv_new B)
  obtain ⟨p1, p2, p3⟩ := PStack.popN_spec B hB vs.reverse s hinv ht
  rw [List.length_reverse] at p1 p2 p3
  obtain ⟨q1, _, _⟩ := PStack.pop_spec B hB _ p3
  rw [p2] at q1
  exact ⟨by simp [hs, p1], by simp [hs, q1]⟩

theorem C1_order_law_witness :
    1 ≤ 4 ∧
    ((((PStack.new : PStack Nat).pushAll 4 [0, 1, 2, 3, 4]).map
        fun s => (s.popN 5).1) = some [some 4, some 3, some 2, some 1, some 0] ∧
      (((PStack.new : PStack Nat).pushAll 4 [0, 1, 2, 3, 4]).map
        fun s => (((s.popN 5).2).pop).1) = some none) :=
  ⟨by decide, C1_order_law 4 (by decide) [0, 1, 2, 3, 4]⟩

/-- C2: Clone independence and snapshot equivalence: for a reachable
stack s with capacity B ≥ 1, after s2 = s.clone(), any further
operation sequence applied to the original handle leaves every read on
the clone observing the clone-time contents: fully draining the clone
yields exactly the logical contents s had at the moment of the clone,
and top/pop on the clone still see its head.  (In the value semantics
of the embedding the clone is the stack value itself; the source's
chain nodes are never mutated through the shared pointer, and the run
of further operations appears as an explicit hypothesis.) -/
theorem C2_clone_independence {T : Type} (B : Nat) (hB : 1 ≤ B)
    (s : PStack T) (hs : Reachable B s) (ops : List (Op T)) (s1 : PStack T)
    (hops : s.run B ops = some s1) (n : Nat) (hn : (s.toList).length ≤ n) :
    (s.clone).drain n = s.toList ∧ (s.clone).top = (s.toList).head? ∧
      ((s.clone).pop).1 = (s.toList).head? := by
  have hinv := PStack.reachable_inv B s hs
  exact ⟨PStack.drain_spec B hB s.toList n s hinv rfl hn,
    PStack.top_spec B hB s hinv, (PStack.pop_spec B hB s hinv).1⟩

theorem C2_clone_independence_witness :
    (PStack.clone (PStack.mk none [5] : PStack Nat)).drain 1 = [5] ∧
    (PStack.clone (PStack.mk none [5] : PStack Nat)).top = some 5 ∧
    ((PStack.clone (PStack.mk none [5] : PStack Nat)).pop).1 = some 5 :=
  C2_clone_independence 1 (by decide) (PStack.mk none [5])
    (@Reachable.push Nat 1 PStack.new (PStack.mk none [5]) 5 Reachable.new rfl)
    [Op.push 7, Op.pop, Op.top_mut] (PStack.mk none [5]) rfl 1 (by decide)

/-- C3: Underflow law: on the logically empty stack (empty current
chunk, no previous chain) any number of consecutive pops returns only
empty results without changing the state, and pop, top and top_mut
each return the empty result leaving the state untouched. -/
theorem C3_underflow {T : Type} (n : Nat) :
    (PStack.mk none ([] : Chunk T)).popN n
        = (List.replicate n none, .mk none []) ∧
    (PStack.mk none ([] : Chunk T)).pop = (none, .mk none []) ∧
    (PStack.mk none ([] : Chunk T)).top = none ∧
    (PStack.mk none ([] : Chunk T)).top_mut = (none, .mk none []) :=
  ⟨PStack.popN_empty n, rfl, rfl, rfl⟩

/-- C4: push never fails: for every stack and value, with capacity
B ≥ 1 the append's panic branch is unreachable and push succeeds. -/
theorem C4_push_total {T : Type} (B : Nat) (hB : 1 ≤ B)
    (s : PStack T) (v : T) : (s.push B v).isSome = true := by
  obtain ⟨s', h, _, _⟩ := PStack.push_spec B hB s v
  rw [h]
  rfl

theorem C4_push_total_witness :
    1 ≤ 1 ∧
      ((PStack.mk (some (PStack.mk none [3])) [9] : PStack Nat).push 1 7).isSome
        = true :=
  ⟨by decide, C4_push_total 1 (by decide) (PStack.mk (some (PStack.mk none [3])) [9]) 7⟩

/-- C5: top is a pure read with no promotion: it returns the last
element of a non-empty current chunk; with an empty current chunk and a
previous chain node it returns the last element of that node's chunk
read in place; otherwise it returns the empty result.  The handle is
unchanged in all cases, which the embedding reflects by the type of
top: it consumes no state and returns none. -/
theorem C5_top_cases {T : Type} :
    (∀ (prev : Option (PStack T)) (L : List T) (a : T),
        (PStack.mk prev (L ++ [a])).top = some a) ∧
    (∀ (pprev : Option (PStack T)) (pcur : Chunk T),
        (PStack.mk (some (.mk pprev pcur)) ([] : Chunk T)).top = Chunk.last pcur) ∧
    (PStack.mk none ([] : Chunk T)).top = none := by
  refine ⟨?_, ?_, rfl⟩
  · intro prev L a
    simp [PStack.top, Chunk.is_empty, Chunk.last]
  · intro pprev pcur
    simp [PStack.top, Chunk.is_empty]

/-- C6: top_mut agrees with top and promotion preserves the contents:
the element returned by top_mut is exactly the one top returns, the
updated stack has unchanged logical contents, and on an empty current
chunk with a previous chain node top_mut copies that node's chunk into
current and replaces the previous link with the node's own link. -/
theorem C6_top_mut_agree {T : Type} (s : PStack T) :
    (s.top_mut).1 = s.top ∧ (s.top_mut).2.toList = s.toList ∧
    (∀ (pprev : Option (PStack T)) (pcur : Chunk T),
        (PStack.mk (some (.mk pprev pcur)) ([] : Chunk T)).top_mut
          = (Chunk.last pcur, .mk pprev pcur)) := by
  refine ⟨(PStack.top_mut_spec s).1, (PStack.top_mut_spec s).2, ?_⟩
  intro pprev pcur
  simp [PStack.top_mut, Chunk.is_empty]

/-- C7: Structural invariant: every stack reachable from new() with
capacity B under push, pop, top_mut and clone has a current chunk of
length at most B, and every chain node reachable through the previous
links carries a fully populated chunk of length exactly B. -/
theorem C7_structural_invariant {T : Type} (B : Nat) (s : PStack T)
    (hs : Reachable B s) : s.inv B :=
  PStack.reachable_inv B s hs

theorem C7_structural_invariant_witness :
    (PStack.mk (some (PStack.mk none [5])) ([] : Chunk Nat)).inv 1 := by
  have h1 : Reachable 1 (PStack.mk none [5] : PStack Nat) :=
    @Reachable.push Nat 1 PStack.new (PStack.mk none [5]) 5 Reachable.new rfl
  have h2 : Reachable 1 (PStack.mk (some (PStack.mk none [5])) [7] : PStack Nat) :=
    @Reachable.push Nat 1 (PStack.mk none [5])
      (PStack.mk (some (PStack.mk none [5])) [7]) 7 h1 rfl
  have h3 : Reachable 1 (PStack.mk (some (PStack.mk none [5])) ([] : Chunk Nat)) :=
    Reachable.pop h2
  exact C7_structural_invariant 1 _ h3

/-- C8: Chunk-boundary scenario: with capacity B = 4, pushing four
elements, popping once and pushing one more yields a stack whose full
drain returns the new element first, then the first three pushed
elements in reverse order, and then the empty result, losing and
duplicating nothing. -/
theorem C8_chunk_boundary {T : Type} (v0 v1 v2 v3 w : T) :
    (((PStack.new.pushAll 4 [v0, v1, v2, v3]).bind
        fun s => ((s.pop).2).push 4 w).map
          fun s => (s.drain 5, (((s.popN 4).2).pop).1))
      = some ([w, v2, v1, v0], none) := by
  have h1 : PStack.new.pushAll 4 [v0, v1, v2, v3]
      = some (.mk none [v0, v1, v2, v3]) := rfl
  have h2 : (PStack.mk none [v0, v1, v2, v3] : PStack T).pop
      = (some v3, .mk none [v0, v1, v2]) := rfl
  have h3 : (PStack.mk none [v0, v1, v2] : PStack T).push 4 w
      = some (.mk none [v0, v1, v2, w]) := rfl
  have h4 : (PStack.mk none [v0, v1, v2, w] : PStack T).drain 5
      = [w, v2, v1, v0] := rfl
  have h5 : ((PStack.mk none [v0, v1, v2, w] : PStack T).popN 4).2
      = .mk none [] := rfl
  rw [h1]
  simp [h2, h3, h4, h5, PStack.pop_eq_nil]

/-- C9: pop returns the empty result exactly on logically empty
stacks; in particular a reachable stack with an empty current chunk
but a present previous link always pops a value, because the promoted
chain chunk is fully populated. -/
theorem C9_pop_none_iff_empty {T : Type} (B : Nat) (hB : 1 ≤ B)
    (s : PStack T) (hs : Reachable B s) :
    ((s.pop).1 = none ↔ s.toList = []) ∧
    (∀ p : PStack T, s = .mk (some p) [] → ((s.pop).1).isSome = true) := by
  have hinv := PStack.reachable_inv B s hs
  obtain ⟨h1, _, _⟩ := PStack.pop_spec B hB s hinv
  constructor
  · rw [h1]
    exact List.head?_eq_none_iff
  · intro p hp
    subst hp
    have hfull : p.full B := by
      rw [PStack.inv_mk] at hinv
      simpa [PStack.fullChain] using hinv.2
    have hne := PStack.full_toList_ne_nil B hB p hfull
    have htl : (PStack.mk (some p) ([] : Chunk T)).toList = p.toList := by
      simp [PStack.toList_mk, PStack.chainToList]
    rw [h1, htl]
    cases hcase : p.toList with
    | nil => exact absurd hcase hne
    | cons a l => simp

theorem C9_pop_none_iff_empty_witness :
    1 ≤ 1 ∧
      (((PStack.mk (some (PStack.mk none [5])) ([] : Chunk Nat)).pop).1).isSome
        = true := by
  have h1 : Reachable 1 (PStack.mk none [5] : PStack Nat) :=
    @Reachable.push Nat 1 PStack.new (PStack.mk none [5]) 5 Reachable.new rfl
  have h2 : Reachable 1 (PStack.mk (some (PStack.mk none [5])) [7] : PStack Nat) :=
    @Reachable.push Nat 1 (PStack.mk none [5])
      (PStack.mk (some (PStack.mk none [5])) [7]) 7 h1 rfl
  have h3 : Reachable 1 (PStack.mk (some (PStack.mk none [5])) ([] : Chunk Nat)) :=
    Reachable.pop h2
  exact ⟨by decide,
    (C9_pop_none_iff_empty 1 (by decide) _ h3).2 (PStack.mk none [5]) rfl⟩

/-- C10: push/pop round trip on arbitrary reachable states: pushing v
and then popping returns exactly v, and the resulting stack, although
possibly folded differently, has the same logical contents as before
the push. -/
theorem C10_push_pop_roundtrip {T : Type} (B : Nat) (hB : 1 ≤ B)
    (s : PStack T) (hs : Reachable B s) (v : T) :
    ((s.push B v).map fun s1 => ((s1.pop).1, ((s1.pop).2).toList))
      = some (some v, s.toList) := by
  have hinv := PStack.reachable_inv B s hs
  obtain ⟨s1, h1, ht1, hi1⟩ := PStack.push_spec B hB s v
  obtain ⟨p1, p2, _⟩ := PStack.pop_spec B hB s1 (hi1 hinv)
  rw [ht1] at p1 p2
  simp only [List.head?_cons] at p1
  simp only [List.tail_cons] at p2
  simp [h1, p1, p2]

theorem C10_push_pop_roundtrip_witness :
    1 ≤ 4 ∧
      (((PStack.new : PStack Nat).push 4 3).map
        fun s1 => ((s1.pop).1, ((s1.pop).2).toList)) = some (some 3, []) :=
  ⟨by decide, C10_push_pop_roundtrip 4 (by decide) PStack.new Reachable.new 3⟩

end Xq

